import Mathlib

/-!
Verification of the module-tree construction and code emission of protocrate
(src/main.rs and src/module.rs), shallowly embedded in Lean.

The embedding models:
- byte-wise string comparison (Rust `Ord` on paths / `sort_unstable`) as a
  character-list comparison `clLe`,
- Rust `str::replace("r#", "")`, `str::replace('.', "_")`, `str::split('.')`,
  `str::trim()` and `Path::file_stem` / `Path::extension` as structural
  character-list functions,
- the `HashMap<String, Module>` as an association list with `entry`-style
  fetch-or-insert (`lookupChild` / `setChild`); iteration order is irrelevant
  because every consumer sorts,
- the `codegen::Scope` output as a small AST `Item` (raw `mod x;` lines,
  `pub mod x { .. }` blocks, `pub use super::x::*;` imports, plain module
  blocks) together with a deterministic printer `renderItems`.

Both implementations present in the repository are embedded:
`Module::build` / `Module::path_to_mod` / `Module::codegen` from
src/module.rs, and `file_name_to_mod_path` / `write_lib_rs` / the tree-building
part of `generate_lib` from src/main.rs.
-/

namespace Protocrate

/-- Byte-wise (code-point-wise) lexicographic order on character lists, the
model of the Rust `Ord` for `str`/`PathBuf` used by `sort`/`sort_unstable`. -/
def clLe : List Char → List Char → Bool
  | [], _ => true
  | _ :: _, [] => false
  | a :: as, b :: bs => if a < b then true else if b < a then false else clLe as bs

/-- Lexicographic order on strings (model of Rust string/path comparison). -/
def strLe (a b : String) : Prop := clLe a.data b.data = true

instance : DecidableRel strLe := fun a b => by unfold strLe; infer_instance

/-- Order on key/value pairs comparing only the key, the model of
`sort_unstable_by(|a, b| a.0.cmp(b.0))`. -/
def keyLe {α : Type} (a b : String × α) : Prop := strLe a.1 b.1

instance {α : Type} : DecidableRel (keyLe (α := α)) := fun a b => by
  unfold keyLe; infer_instance

/-- `mods.sort_unstable()` on a vector of strings. -/
def sortStrs (l : List String) : List String := l.insertionSort strLe

/-- `child_mod.sort_unstable_by(|a, b| a.0.cmp(b.0))` on key/value pairs. -/
def sortPairs {α : Type} (l : List (String × α)) : List (String × α) :=
  l.insertionSort keyLe

/-- Model of `str::replace("r#", "")`: drop every (non-overlapping,
left-to-right) occurrence of the two-character sequence `r#`. -/
def stripRawChars : List Char → List Char
  | 'r' :: '#' :: rest => stripRawChars rest
  | c :: rest => c :: stripRawChars rest
  | [] => []

/-- Model of `str::replace('.', "_")`. -/
def dotsToUnders (l : List Char) : List Char :=
  l.map fun c => if c = '.' then '_' else c

/-- Model of `str::split('.')`: splitting an empty input yields one empty
segment, never zero segments. -/
def splitDots : List Char → List (List Char)
  | [] => [[]]
  | c :: rest =>
    if c = '.' then [] :: splitDots rest
    else
      match splitDots rest with
      | s :: ss => (c :: s) :: ss
      | [] => [[c]]

/-- Model of `str::trim()`: remove leading and trailing whitespace. -/
def rustTrim (s : String) : String :=
  ⟨(((s.data.dropWhile Char.isWhitespace).reverse.dropWhile Char.isWhitespace).reverse)⟩

/-- `file_stem.replace("r#", "")` as performed in `Module::build`
(src/module.rs line 38) and `generate_lib` (src/main.rs line 124). -/
def stripRaw (s : String) : String := ⟨stripRawChars s.data⟩

/-- `let mod_path: Vec<&str> = file_stem.split('.').collect()` applied to the
stem with escape markers already stripped (src/module.rs line 39). -/
def modPath (stem : String) : List String :=
  (splitDots (stripRaw stem).data).map fun l => ⟨l⟩

/-- `let internal_mod_name = file_stem.replace('.', "_") + "_internal"`
(src/module.rs line 40). -/
def internalName (stem : String) : String :=
  (⟨dotsToUnders (stripRaw stem).data⟩ : String) ++ "_internal"

/-- Model of Rust `Path::file_stem` for a plain file name: the whole name if
it has no dot, or begins with a dot and has no further dot; otherwise the
portion before the final dot. -/
def fileStem (name : String) : String :=
  let parts := splitDots name.data
  if parts.length ≤ 1 then name
  else if name.data.head? = some '.' ∧ parts.length = 2 then name
  else String.intercalate "." (parts.dropLast.map fun l => ⟨l⟩)

/-- Model of Rust `Path::extension` for a plain file name: `none` exactly when
`fileStem` keeps the whole name, otherwise the portion after the final dot. -/
def fileExtension (name : String) : Option String :=
  let parts := splitDots name.data
  if parts.length ≤ 1 then none
  else if name.data.head? = some '.' ∧ parts.length = 2 then none
  else some ⟨parts.getLast!⟩

/-- The reserved words escaped with the raw-identifier marker `r#`
(src/module.rs lines 116-121, duplicated in src/main.rs lines 48-53). -/
def rawEscapable : List String :=
  ["as", "break", "const", "continue", "else", "enum", "false", "fn", "for",
   "if", "impl", "in", "let", "loop", "match", "mod", "move", "mut", "pub",
   "ref", "return", "static", "struct", "trait", "true", "type", "unsafe",
   "use", "where", "while", "dyn", "abstract", "become", "box", "do", "final",
   "macro", "override", "priv", "typeof", "unsized", "virtual", "yield",
   "async", "await", "try"]

/-- The reserved words that cannot take `r#` and get a trailing underscore
instead (src/module.rs line 122). -/
def specialEscape : List String := ["self", "super", "extern", "crate"]

/-- `escape_reserved_keywords` (src/module.rs lines 113-126; the identical
copy lives in src/main.rs lines 45-58). -/
def escape_reserved_keywords (ident : String) : String :=
  if ident ∈ rawEscapable then "r#" ++ ident
  else if ident ∈ specialEscape then ident ++ "_"
  else ident

/-- The module tree (`struct Module`, src/module.rs lines 9-14; the `HashMap`
is modelled as an association list with unique keys). -/
inductive Module where
  | mk (child_mod : List (String × Module)) (priv_mod : List String)
      (use_mod : List String)

def Module.child_mod : Module → List (String × Module)
  | .mk c _ _ => c

def Module.priv_mod : Module → List String
  | .mk _ p _ => p

def Module.use_mod : Module → List String
  | .mk _ _ u => u

instance : Inhabited Module := ⟨.mk [] [] []⟩

/-- `HashMap::get` on the association list. -/
def lookupChild : List (String × Module) → String → Option Module
  | [], _ => none
  | (k, c) :: rest, key => if k = key then some c else lookupChild rest key

/-- Store a value under a key: replace the existing entry or append a new one.
Together with `lookupChild` this models `child_mod.entry(key).or_insert_with`
followed by mutation of the entry. -/
def setChild : List (String × Module) → String → Module → List (String × Module)
  | [], key, v => [(key, v)]
  | (k, c) :: rest, key, v =>
    if k = key then (key, v) :: rest else (k, c) :: setChild rest key v

/-- `Module::path_to_mod` (src/module.rs lines 56-71): the child key is the
escaped segment; with one segment left the unit name is also pushed on
the `priv_mod` of the current node; with no segment left it is pushed on `use_mod`. -/
def Module.path_to_mod : Module → String → List String → Module
  | .mk c p u, mod_name, [] =>
    .mk c p (u ++ [rustTrim (escape_reserved_keywords mod_name)])
  | .mk c p u, mod_name, s :: rest =>
    let key := escape_reserved_keywords s
    let child := (lookupChild c key).getD default
    let child2 := child.path_to_mod mod_name rest
    let p2 :=
      if rest.isEmpty then p ++ [rustTrim (escape_reserved_keywords mod_name)]
      else p
    .mk (setChild c key child2) p2 u

/-- `file_name_to_mod_path` (src/main.rs lines 60-77): identical to
`Module::path_to_mod` except that the child key is the RAW segment
(`path[0].to_owned()`, no escaping). -/
def file_name_to_mod_path : Module → String → List String → Module
  | .mk c p u, mod_name, [] =>
    .mk c p (u ++ [rustTrim (escape_reserved_keywords mod_name)])
  | .mk c p u, mod_name, s :: rest =>
    let child := (lookupChild c s).getD default
    let child2 := file_name_to_mod_path child mod_name rest
    let p2 :=
      if rest.isEmpty then p ++ [rustTrim (escape_reserved_keywords mod_name)]
      else p
    .mk (setChild c s child2) p2 u

/-- `Module::sorted_children` (src/module.rs lines 72-80). -/
def Module.sorted_children (m : Module) : List (String × Module) :=
  sortPairs m.child_mod

/-- `Module::sorted_priv_modules` (src/module.rs lines 81-85). -/
def Module.sorted_priv_modules (m : Module) : List String :=
  sortStrs m.priv_mod

/-- `Module::sorted_use` (src/module.rs lines 86-90). -/
def Module.sorted_use (m : Module) : List String := sortStrs m.use_mod

/-- One emitted statement of the aggregation file, the model of what
`Module::codegen` / `write_lib_rs` put into the `codegen::Scope`. -/
inductive Item where
  | rawModDecl (name : String)
  | pubModBlock (name : String) (body : List Item)
  | pubUseGlob (name : String)
  | privModBlock (name : String)

mutual
/-- `Module::codegen` (src/module.rs lines 91-107): private `mod name;` lines
sorted, then the children as `pub mod` blocks sorted by key, then the
`pub use super::name::*;` imports sorted. The children are recursed first and
the resulting key/body pairs sorted afterwards; `codegen_mk` below proves this
equal to sorting the children first as the source does (the sort compares only
keys and is key-stable). -/
def Module.codegen : Module → List Item
  | .mk c p u =>
    (sortStrs p).map Item.rawModDecl
      ++ (sortPairs (cgChildren c)).map (fun y => Item.pubModBlock y.1 y.2)
      ++ (sortStrs u).map Item.pubUseGlob

def cgChildren : List (String × Module) → List (String × List Item)
  | [] => []
  | (k, m) :: rest => (k, m.codegen) :: cgChildren rest
end

mutual
/-- `write_lib_rs` (src/main.rs lines 79-97): private modules are emitted with
`scope.new_module(&mod_name)` (a plain module block, no visibility), children
are sorted by their (raw) key and emitted as `pub mod` blocks under the
ESCAPED key, imports as in `Module::codegen`. -/
def write_lib_rs : Module → List Item
  | .mk c p u =>
    (sortStrs p).map Item.privModBlock
      ++ (sortPairs (wlrChildren c)).map
        (fun y => Item.pubModBlock (escape_reserved_keywords y.1) y.2)
      ++ (sortStrs u).map Item.pubUseGlob

def wlrChildren : List (String × Module) → List (String × List Item)
  | [] => []
  | (k, m) :: rest => (k, write_lib_rs m) :: wlrChildren rest
end

/-- One iteration of the loop in `Module::build` (src/module.rs lines 29-53),
restricted to its pure part: stem → strip `r#` → split on dots → insert. -/
def insertStem (m : Module) (stem : String) : Module :=
  m.path_to_mod (internalName stem) (modPath stem)

/-- `Module::build` (src/module.rs lines 17-55) minus filesystem effects: the
enumerated file names are sorted (`file_paths.sort()`), each name is reduced
to its stem and inserted into the tree. -/
def build (file_names : List String) : Module :=
  (sortStrs file_names).foldl (fun m name => insertStem m (fileStem name))
    default

/-- One iteration of the loop in `generate_lib` (src/main.rs lines 114-137),
pure part; same stem processing, but insertion via `file_name_to_mod_path`. -/
def insertStem2 (m : Module) (stem : String) : Module :=
  file_name_to_mod_path m (internalName stem) (modPath stem)

/-- The tree-building part of `generate_lib` (src/main.rs lines 99-137). -/
def build2 (file_names : List String) : Module :=
  (sortStrs file_names).foldl (fun m name => insertStem2 m (fileStem name))
    default

/-- The relocation target computed in `Module::build` (src/module.rs lines
41-51): the chain of directories joined below the source directory (one per
path segment except the last, raw and unescaped), and the new file name
`internal_mod_name + ".rs"`. -/
def relocate (name : String) : List String × String :=
  let stem := fileStem name
  let mp := modPath stem
  ((mp.take (mp.length - 1)).foldl (fun d seg => d ++ [seg]) [],
    internalName stem ++ ".rs")

mutual
/-- Deterministic printer for the emitted statements, the model of
`Scope::to_string`. -/
def renderItem : Item → String
  | .rawModDecl n => "mod " ++ n ++ ";\n"
  | .pubModBlock n body => "pub mod " ++ n ++ " \x7b\n" ++ renderItems body ++ "\x7d\n"
  | .pubUseGlob n => "pub use super::" ++ n ++ "::*;\n"
  | .privModBlock n => "mod " ++ n ++ " \x7b\n\x7d\n"

def renderItems : List Item → String
  | [] => ""
  | i :: rest => renderItem i ++ renderItems rest
end

mutual
/-- Every namespace-segment name (child-map key) occurring in the tree. -/
def treeKeys : Module → List String
  | .mk c _ _ => treeKeysList c

def treeKeysList : List (String × Module) → List String
  | [] => []
  | (k, m) :: rest => k :: (treeKeys m ++ treeKeysList rest)
end

mutual
/-- Every internal-unit name occurring in the tree (the `priv_mod` and
`use_mod` entries of every node). -/
def treeUnits : Module → List String
  | .mk c p u => p ++ u ++ treeUnitsList c

def treeUnitsList : List (String × Module) → List String
  | [] => []
  | (_, m) :: rest => treeUnits m ++ treeUnitsList rest
end

mutual
/-- Every identifier name mentioned by a list of emitted statements. -/
def collectNamesItem : Item → List String
  | .rawModDecl n => [n]
  | .pubModBlock n body => n :: collectNamesList body
  | .pubUseGlob n => [n]
  | .privModBlock n => [n]

def collectNamesList : List Item → List String
  | [] => []
  | i :: rest => collectNamesItem i ++ collectNamesList rest
end

mutual
/-- Total number of `pub mod` blocks in a list of emitted statements,
counting nested blocks. -/
def countModsItem : Item → Nat
  | .pubModBlock _ body => 1 + countModsList body
  | _ => 0

def countModsList : List Item → Nat
  | [] => 0
  | i :: rest => countModsItem i + countModsList rest
end

/-- The names of the top-level `pub mod` blocks, in emission order. -/
def rootPubModNames (items : List Item) : List String :=
  items.filterMap fun i =>
    match i with
    | .pubModBlock n _ => some n
    | _ => none

/-- The names declared by top-level `mod name;` lines, in emission order. -/
def privNamesTop (items : List Item) : List String :=
  items.filterMap fun i =>
    match i with
    | .rawModDecl n => some n
    | _ => none

/-- The names re-exported by top-level `pub use super::name::*;` lines. -/
def useNamesTop (items : List Item) : List String :=
  items.filterMap fun i =>
    match i with
    | .pubUseGlob n => some n
    | _ => none

/-- First `pub mod` block with the given name. -/
def findPubBlock : List Item → String → Option (List Item)
  | [], _ => none
  | .pubModBlock n body :: rest, key =>
    if n = key then some body else findPubBlock rest key
  | _ :: rest, key => findPubBlock rest key

/-- Descend through nested `pub mod` blocks along a path of names. -/
def blockAt : List Item → List String → Option (List Item)
  | items, [] => some items
  | items, key :: rest =>
    match findPubBlock items key with
    | some body => blockAt body rest
    | none => none

/-- Descend through the tree along a path of child keys. -/
def nodeAt : Module → List String → Option Module
  | m, [] => some m
  | m, key :: rest =>
    match lookupChild m.child_mod key with
    | some c => nodeAt c rest
    | none => none

/-- Total variant of `nodeAt`, substituting an empty node for missing
children. -/
def nodeAtD : Module → List String → Module
  | m, [] => m
  | m, key :: rest => nodeAtD ((lookupChild m.child_mod key).getD default) rest

/-- Whether a string ends with the fixed `_internal` marker. -/
def hasInternalSuffix (s : String) : Bool :=
  "_internal".data.isSuffixOf s.data

/-- The emission a single file with path segments `segs` and internal-unit
name `u` is expected to produce: `segs.length` nested `pub mod` blocks (keys
escaped), the `mod u;` declaration next to the innermost block, and the
re-export inside it. -/
def chainItems : List String → String → List Item
  | [], _ => []
  | [s], u =>
    [Item.rawModDecl u,
     Item.pubModBlock (escape_reserved_keywords s) [Item.pubUseGlob u]]
  | s :: rest, u => [Item.pubModBlock (escape_reserved_keywords s) (chainItems rest u)]

end Protocrate
namespace Protocrate

/-! ### The string order is linear -/

theorem clLe_total : ∀ a b : List Char, clLe a b = true ∨ clLe b a = true := by
  intro a
  induction a with
  | nil => intro b; left; rfl
  | cons x xs ih =>
    intro b
    cases b with
    | nil => right; rfl
    | cons y ys =>
      by_cases hxy : x < y
      · left; simp [clLe, hxy]
      · by_cases hyx : y < x
        · right; simp [clLe, hyx]
        · have hxeq : x = y := le_antisymm (not_lt.mp hyx) (not_lt.mp hxy)
          subst hxeq
          simpa [clLe, hxy] using ih ys

theorem clLe_trans :
    ∀ a b c : List Char, clLe a b = true → clLe b c = true → clLe a c = true := by
  intro a
  induction a with
  | nil => intro b c _ _; rfl
  | cons x xs ih =>
    intro b c hab hbc
    cases b with
    | nil => simp [clLe] at hab
    | cons y ys =>
      cases c with
      | nil => simp [clLe] at hbc
      | cons z zs =>
        by_cases hxy : x < y
        · by_cases hyz : y < z
          · simp [clLe, lt_trans hxy hyz]
          · by_cases hzy : z < y
            · simp [clLe, hyz, hzy] at hbc
            · have : y = z := le_antisymm (not_lt.mp hzy) (not_lt.mp hyz)
              subst this
              simp [clLe, hxy]
        · by_cases hyx : y < x
          · simp [clLe, hxy, hyx] at hab
          · have : x = y := le_antisymm (not_lt.mp hyx) (not_lt.mp hxy)
            subst this
            by_cases hxz : x < z
            · simp [clLe, hxz]
            · by_cases hzx : z < x
              · simp [clLe, hxz, hzx] at hbc
              · have : x = z := le_antisymm (not_lt.mp hzx) (not_lt.mp hxz)
                subst this
                simp [clLe, lt_irrefl] at hab hbc ⊢
                exact ih _ _ hab hbc

end Protocrate

namespace Protocrate

theorem clLe_antisymm :
    ∀ a b : List Char, clLe a b = true → clLe b a = true → a = b := by
  intro a
  induction a with
  | nil =>
    intro b _ hba
    cases b with
    | nil => rfl
    | cons y ys => simp [clLe] at hba
  | cons x xs ih =>
    intro b hab hba
    cases b with
    | nil => simp [clLe] at hab
    | cons y ys =>
      by_cases hxy : x < y
      · simp [clLe, hxy, asymm hxy] at hba
      · by_cases hyx : y < x
        · simp [clLe, hxy, hyx] at hab
        · have : x = y := le_antisymm (not_lt.mp hyx) (not_lt.mp hxy)
          subst this
          simp [clLe, lt_irrefl] at hab hba
          exact congrArg (x :: ·) (ih ys hab hba)

instance : IsTotal String strLe := ⟨fun a b => clLe_total a.data b.data⟩

instance : IsTrans String strLe :=
  ⟨fun a b c hab hbc => clLe_trans a.data b.data c.data hab hbc⟩

instance : IsAntisymm String strLe := by
  refine ⟨fun a b hab hba => ?_⟩
  cases a; cases b
  exact congrArg String.mk (clLe_antisymm _ _ hab hba)

instance {α : Type} : IsTotal (String × α) keyLe :=
  ⟨fun a b => clLe_total a.1.data b.1.data⟩

instance {α : Type} : IsTrans (String × α) keyLe :=
  ⟨fun a b c hab hbc => clLe_trans a.1.data b.1.data c.1.data hab hbc⟩

/-! ### Equation lemmas presenting `codegen` exactly as the source orders it:
sort the children first, then recurse into each sorted child -/

theorem cgChildren_eq_map :
    ∀ l : List (String × Module), cgChildren l = l.map fun y => (y.1, y.2.codegen) := by
  intro l
  induction l with
  | nil => rfl
  | cons y rest ih => obtain ⟨k, m⟩ := y; simp [cgChildren, ih]

theorem codegen_mk (c : List (String × Module)) (p u : List String) :
    Module.codegen (.mk c p u) =
      (sortStrs p).map Item.rawModDecl
        ++ (sortPairs c).map (fun y => Item.pubModBlock y.1 y.2.codegen)
        ++ (sortStrs u).map Item.pubUseGlob := by
  have hmap := List.map_insertionSort (keyLe (α := Module)) (keyLe (α := List Item))
    (fun y => (y.1, y.2.codegen)) c (fun _ _ _ _ => Iff.rfl)
  show (sortStrs p).map Item.rawModDecl
      ++ (sortPairs (cgChildren c)).map (fun y => Item.pubModBlock y.1 y.2)
      ++ (sortStrs u).map Item.pubUseGlob = _
  rw [cgChildren_eq_map]
  unfold sortPairs
  rw [← hmap, List.map_map]
  rfl

theorem wlrChildren_eq_map :
    ∀ l : List (String × Module),
      wlrChildren l = l.map fun y => (y.1, write_lib_rs y.2) := by
  intro l
  induction l with
  | nil => rfl
  | cons y rest ih => obtain ⟨k, m⟩ := y; simp [wlrChildren, ih]

theorem write_lib_rs_mk (c : List (String × Module)) (p u : List String) :
    write_lib_rs (.mk c p u) =
      (sortStrs p).map Item.privModBlock
        ++ (sortPairs c).map
          (fun y => Item.pubModBlock (escape_reserved_keywords y.1) (write_lib_rs y.2))
        ++ (sortStrs u).map Item.pubUseGlob := by
  have hmap := List.map_insertionSort (keyLe (α := Module)) (keyLe (α := List Item))
    (fun y => (y.1, write_lib_rs y.2)) c (fun _ _ _ _ => Iff.rfl)
  show (sortStrs p).map Item.privModBlock
      ++ (sortPairs (wlrChildren c)).map
        (fun y => Item.pubModBlock (escape_reserved_keywords y.1) y.2)
      ++ (sortStrs u).map Item.pubUseGlob = _
  rw [wlrChildren_eq_map]
  unfold sortPairs
  rw [← hmap, List.map_map]
  rfl

end Protocrate

namespace Protocrate

/-! ### Facts about the keyword escaping -/

theorem escape_of_mem_raw {s : String} (h : s ∈ rawEscapable) :
    escape_reserved_keywords s = "r#" ++ s := if_pos h

theorem special_not_raw : ∀ s ∈ specialEscape, s ∉ rawEscapable := by decide

theorem escape_of_mem_special {s : String} (h : s ∈ specialEscape) :
    escape_reserved_keywords s = s ++ "_" := by
  unfold escape_reserved_keywords
  rw [if_neg (special_not_raw s h), if_pos h]

theorem escape_of_not_mem {s : String} (h1 : s ∉ rawEscapable)
    (h2 : s ∉ specialEscape) : escape_reserved_keywords s = s := by
  unfold escape_reserved_keywords
  rw [if_neg h1, if_neg h2]

theorem raw_escaped_not_reserved :
    ∀ s ∈ rawEscapable, ("r#" ++ s) ∉ rawEscapable ∧ ("r#" ++ s) ∉ specialEscape := by
  decide

theorem special_escaped_not_reserved :
    ∀ s ∈ specialEscape, (s ++ "_") ∉ rawEscapable ∧ (s ++ "_") ∉ specialEscape := by
  decide

theorem escape_not_reserved (s : String) :
    escape_reserved_keywords s ∉ rawEscapable ∧
      escape_reserved_keywords s ∉ specialEscape := by
  by_cases h1 : s ∈ rawEscapable
  · rw [escape_of_mem_raw h1]; exact raw_escaped_not_reserved s h1
  · by_cases h2 : s ∈ specialEscape
    · rw [escape_of_mem_special h2]; exact special_escaped_not_reserved s h2
    · rw [escape_of_not_mem h1 h2]; exact ⟨h1, h2⟩

/-- C10: `escape_reserved_keywords` is idempotent: escaping an already escaped
name is the identity, because no output of the function (an `r#`-prefixed
keyword, an underscore-suffixed word, or an unchanged non-reserved name) lies
in either reserved-word match set. -/
theorem escape_reserved_keywords_idempotent (s : String) :
    escape_reserved_keywords (escape_reserved_keywords s) =
      escape_reserved_keywords s := by
  obtain ⟨h1, h2⟩ := escape_not_reserved s
  exact escape_of_not_mem h1 h2

/-- C6 counterexample: `escape_reserved_keywords` does NOT trim surrounding
whitespace from non-reserved names — the input `" x "` is returned verbatim,
while the claim demands the trimmed string `"x"`. (The `.trim()` in the source
is applied by the callers in `path_to_mod`, after escaping.) -/
theorem escape_no_trim_counterexample :
    escape_reserved_keywords " x " = " x " ∧ rustTrim " x " = "x" ∧
      (" x " : String) ≠ "x" := by
  refine ⟨?_, ?_, ?_⟩ <;> decide

/-- C6 amended: `escape_reserved_keywords` is total and prefixes `r#` on the
46 keywords admitting raw-identifier syntax, appends `_` on the four words
`self`, `super`, `extern`, `crate`, and returns every other name UNCHANGED
(without any whitespace trimming). -/
theorem escape_reserved_keywords_spec :
    (∀ s ∈ rawEscapable, escape_reserved_keywords s = "r#" ++ s) ∧
      (∀ s ∈ specialEscape, escape_reserved_keywords s = s ++ "_") ∧
      ∀ s : String, s ∉ rawEscapable → s ∉ specialEscape →
        escape_reserved_keywords s = s :=
  ⟨fun _ hs => escape_of_mem_raw hs, fun _ hs => escape_of_mem_special hs,
    fun _ h1 h2 => escape_of_not_mem h1 h2⟩

theorem escape_reserved_keywords_spec_witness :
    escape_reserved_keywords "type" = "r#" ++ "type" ∧
      escape_reserved_keywords "self" = "self" ++ "_" ∧
      escape_reserved_keywords "plain" = "plain" :=
  ⟨escape_reserved_keywords_spec.1 "type" (by decide),
    escape_reserved_keywords_spec.2.1 "self" (by decide),
    escape_reserved_keywords_spec.2.2 "plain" (by decide) (by decide)⟩

/-! ### Stem parsing never yields zero segments -/

theorem splitDots_ne_nil : ∀ l : List Char, splitDots l ≠ [] := by
  intro l
  induction l with
  | nil => simp [splitDots]
  | cons c rest ih =>
    unfold splitDots
    by_cases hc : c = '.'
    · simp [hc]
    · simp only [hc, if_false]
      cases h : splitDots rest with
      | nil => exact absurd h ih
      | cons s ss => simp

/-- C7 amended: splitting a stem on the dot delimiter never yields zero
segments (an empty stem yields the single empty segment), so the build has no
`ParseError` path for stem content: every stem is inserted into the tree. -/
theorem modPath_never_empty (stem : String) : modPath stem ≠ [] := by
  unfold modPath
  intro h
  exact splitDots_ne_nil _ (List.map_eq_nil_iff.mp h)

/-- C7 counterexample: the empty stem is NOT rejected: it parses to the single
empty segment (one segment, not zero), and `Module::build` processes it
normally, producing a tree with an empty-named child module — no `ParseError`
is raised. -/
theorem empty_stem_parses_counterexample :
    modPath "" = [""] ∧ (modPath "").length = 1 ∧
      insertStem default "" =
        Module.mk [("", Module.mk [] [] ["_internal"])] ["_internal"] [] :=
  ⟨rfl, rfl, rfl⟩

end Protocrate

namespace Protocrate

/-! ### The shape of the emission for a single inserted file -/

theorem codegen_singleton (k : String) (x : Module) :
    Module.codegen (.mk [(k, x)] [] []) = [Item.pubModBlock k x.codegen] := rfl

theorem codegen_single_chain :
    ∀ (segs : List String) (u : String), segs ≠ [] →
      (Module.path_to_mod default u segs).codegen =
        chainItems segs (rustTrim (escape_reserved_keywords u)) := by
  intro segs
  induction segs with
  | nil => intro u h; exact absurd rfl h
  | cons s rest ih =>
    intro u _
    cases rest with
    | nil => rfl
    | cons r rs =>
      have hstep : Module.path_to_mod default u (s :: r :: rs) =
          .mk [(escape_reserved_keywords s, Module.path_to_mod default u (r :: rs))]
            [] [] := rfl
      rw [hstep, codegen_singleton, ih u (by simp)]
      rfl

theorem chain_count :
    ∀ (segs : List String) (u : String), segs ≠ [] →
      countModsList (chainItems segs u) = segs.length := by
  intro segs
  induction segs with
  | nil => intro u h; exact absurd rfl h
  | cons s rest ih =>
    intro u _
    cases rest with
    | nil => rfl
    | cons r rs =>
      have : countModsList (chainItems (s :: r :: rs) u) =
          1 + countModsList (chainItems (r :: rs) u) := by
        simp [chainItems, countModsList, countModsItem]
      rw [this, ih u (by simp)]
      simp [Nat.add_comm]

theorem chain_priv :
    ∀ (segs : List String) (u : String), segs ≠ [] →
      (blockAt (chainItems segs u)
          ((segs.dropLast).map escape_reserved_keywords)).map privNamesTop =
        some [u] := by
  intro segs
  induction segs with
  | nil => intro u h; exact absurd rfl h
  | cons s rest ih =>
    intro u _
    cases rest with
    | nil => rfl
    | cons r rs =>
      have hstep : (s :: r :: rs).dropLast = s :: (r :: rs).dropLast := rfl
      rw [hstep]
      have hdesc : blockAt (chainItems (s :: r :: rs) u)
          ((s :: (r :: rs).dropLast).map escape_reserved_keywords) =
          blockAt (chainItems (r :: rs) u)
            (((r :: rs).dropLast).map escape_reserved_keywords) := by
        simp [chainItems, blockAt, findPubBlock]
      rw [hdesc]
      exact ih u (by simp)

theorem chain_use :
    ∀ (segs : List String) (u : String), segs ≠ [] →
      (blockAt (chainItems segs u)
          (segs.map escape_reserved_keywords)).map useNamesTop = some [u] := by
  intro segs
  induction segs with
  | nil => intro u h; exact absurd rfl h
  | cons s rest ih =>
    intro u _
    cases rest with
    | nil =>
      simp [chainItems, blockAt, findPubBlock, useNamesTop]
    | cons r rs =>
      have hdesc : blockAt (chainItems (s :: r :: rs) u)
          ((s :: r :: rs).map escape_reserved_keywords) =
          blockAt (chainItems (r :: rs) u)
            ((r :: rs).map escape_reserved_keywords) := by
        simp [chainItems, blockAt, findPubBlock]
      rw [hdesc]
      exact ih u (by simp)

/-- C2: inserting a single file whose stem has `k` dot-separated segments and
emitting the tree produces exactly `k` nested `pub mod` blocks below the root;
the private `mod <unit>;` declaration of the file sits at nesting level `k-1` (the
node for all-but-last segments) and its `pub use super::<unit>::*;` re-export
at level `k` (the node for the full path). -/
theorem path_to_mod_codegen_nesting (u : String) (segs : List String)
    (h : segs ≠ []) :
    countModsList ((Module.path_to_mod default u segs).codegen) = segs.length ∧
      (blockAt ((Module.path_to_mod default u segs).codegen)
          ((segs.dropLast).map escape_reserved_keywords)).map privNamesTop =
        some [rustTrim (escape_reserved_keywords u)] ∧
      (blockAt ((Module.path_to_mod default u segs).codegen)
          (segs.map escape_reserved_keywords)).map useNamesTop =
        some [rustTrim (escape_reserved_keywords u)] := by
  rw [codegen_single_chain segs u h]
  exact ⟨chain_count segs _ h, chain_priv segs _ h, chain_use segs _ h⟩

theorem path_to_mod_codegen_nesting_witness :
    countModsList
        ((Module.path_to_mod default "foo_v1_internal" ["foo", "v1"]).codegen) =
      (["foo", "v1"] : List String).length ∧
      (blockAt ((Module.path_to_mod default "foo_v1_internal" ["foo", "v1"]).codegen)
          (((["foo", "v1"] : List String).dropLast).map escape_reserved_keywords)).map
          privNamesTop =
        some [rustTrim (escape_reserved_keywords "foo_v1_internal")] ∧
      (blockAt ((Module.path_to_mod default "foo_v1_internal" ["foo", "v1"]).codegen)
          ((["foo", "v1"] : List String).map escape_reserved_keywords)).map
          useNamesTop =
        some [rustTrim (escape_reserved_keywords "foo_v1_internal")] :=
  path_to_mod_codegen_nesting "foo_v1_internal" ["foo", "v1"] (by decide)

/-! ### Determinism of the aggregation text -/

theorem sortStrs_perm_eq {l1 l2 : List String} (h : l1.Perm l2) :
    sortStrs l1 = sortStrs l2 :=
  List.eq_of_perm_of_sorted
    ((List.perm_insertionSort strLe l1).trans
      (h.trans (List.perm_insertionSort strLe l2).symm))
    (List.sorted_insertionSort strLe l1) (List.sorted_insertionSort strLe l2)

/-- C1: for every non-empty set of input files, the rendered aggregation text
produced by `Module::build` followed by `Module::codegen` is byte-identical
regardless of the order in which the files are enumerated: the text is a pure
function of the file set (the build sorts the enumerated paths, and every
emission step sorts again). -/
theorem build_render_deterministic (l1 l2 : List String) (_h1 : l1 ≠ [])
    (hp : l1.Perm l2) :
    renderItems ((build l1).codegen) = renderItems ((build l2).codegen) := by
  unfold build
  rw [sortStrs_perm_eq hp]

theorem build_render_deterministic_witness :
    renderItems ((build ["b.rs", "a.rs"]).codegen) =
      renderItems ((build ["a.rs", "b.rs"]).codegen) :=
  build_render_deterministic ["b.rs", "a.rs"] ["a.rs", "b.rs"] (by decide)
    (by decide)

end Protocrate

namespace Protocrate

/-! ### Where keys and unit names in the tree come from -/

theorem treeKeys_mk (c : List (String × Module)) (p u : List String) :
    treeKeys (.mk c p u) = treeKeysList c := rfl

theorem treeUnits_mk (c : List (String × Module)) (p u : List String) :
    treeUnits (.mk c p u) = p ++ u ++ treeUnitsList c := rfl

theorem treeKeysList_cons (k : String) (m : Module) (rest : List (String × Module)) :
    treeKeysList ((k, m) :: rest) = k :: (treeKeys m ++ treeKeysList rest) := rfl

theorem treeUnitsList_cons (k : String) (m : Module) (rest : List (String × Module)) :
    treeUnitsList ((k, m) :: rest) = treeUnits m ++ treeUnitsList rest := rfl

theorem mem_treeKeysList_setChild {x : String} :
    ∀ (l : List (String × Module)) (k : String) (v : Module),
      x ∈ treeKeysList (setChild l k v) →
        x ∈ treeKeysList l ∨ x = k ∨ x ∈ treeKeys v := by
  intro l
  induction l with
  | nil =>
    intro k v h
    simp [setChild, treeKeysList_cons, treeKeysList] at h
    tauto
  | cons y rest ih =>
    obtain ⟨k0, c0⟩ := y
    intro k v h
    by_cases hk : k0 = k
    · rw [show setChild ((k0, c0) :: rest) k v = (k, v) :: rest by
        simp [setChild, hk]] at h
      rw [treeKeysList_cons] at h
      rw [treeKeysList_cons]
      simp at h ⊢
      tauto
    · rw [show setChild ((k0, c0) :: rest) k v = (k0, c0) :: setChild rest k v by
        simp [setChild, hk]] at h
      rw [treeKeysList_cons] at h
      rw [treeKeysList_cons]
      simp at h ⊢
      rcases h with h | h | h
      · tauto
      · tauto
      · rcases ih k v h with h2 | h2 | h2 <;> tauto

theorem mem_treeKeysList_lookup {x : String} :
    ∀ (l : List (String × Module)) (k : String) (c : Module),
      lookupChild l k = some c → x ∈ treeKeys c → x ∈ treeKeysList l := by
  intro l
  induction l with
  | nil => intro k c h; simp [lookupChild] at h
  | cons y rest ih =>
    obtain ⟨k0, c0⟩ := y
    intro k c h hx
    by_cases hk : k0 = k
    · simp [lookupChild, hk] at h
      subst h
      rw [treeKeysList_cons]
      simp [hx]
    · simp [lookupChild, hk] at h
      rw [treeKeysList_cons]
      simp
      exact Or.inr (Or.inr (ih k c h hx))

theorem mem_treeUnitsList_setChild {x : String} :
    ∀ (l : List (String × Module)) (k : String) (v : Module),
      x ∈ treeUnitsList (setChild l k v) →
        x ∈ treeUnitsList l ∨ x ∈ treeUnits v := by
  intro l
  induction l with
  | nil =>
    intro k v h
    simp [setChild, treeUnitsList_cons, treeUnitsList] at h
    tauto
  | cons y rest ih =>
    obtain ⟨k0, c0⟩ := y
    intro k v h
    by_cases hk : k0 = k
    · rw [show setChild ((k0, c0) :: rest) k v = (k, v) :: rest by
        simp [setChild, hk]] at h
      rw [treeUnitsList_cons] at h
      rw [treeUnitsList_cons]
      simp at h ⊢
      tauto
    · rw [show setChild ((k0, c0) :: rest) k v = (k0, c0) :: setChild rest k v by
        simp [setChild, hk]] at h
      rw [treeUnitsList_cons] at h
      rw [treeUnitsList_cons]
      simp at h ⊢
      rcases h with h | h
      · tauto
      · rcases ih k v h with h2 | h2 <;> tauto

theorem mem_treeUnitsList_lookup {x : String} :
    ∀ (l : List (String × Module)) (k : String) (c : Module),
      lookupChild l k = some c → x ∈ treeUnits c → x ∈ treeUnitsList l := by
  intro l
  induction l with
  | nil => intro k c h; simp [lookupChild] at h
  | cons y rest ih =>
    obtain ⟨k0, c0⟩ := y
    intro k c h hx
    by_cases hk : k0 = k
    · simp [lookupChild, hk] at h
      subst h
      rw [treeUnitsList_cons]
      simp [hx]
    · simp [lookupChild, hk] at h
      rw [treeUnitsList_cons]
      simp
      exact Or.inr (ih k c h hx)

theorem path_to_mod_keys {x : String} :
    ∀ (p : List String) (m : Module) (n : String),
      x ∈ treeKeys (m.path_to_mod n p) →
        x ∈ treeKeys m ∨ ∃ s ∈ p, x = escape_reserved_keywords s := by
  intro p
  induction p with
  | nil =>
    intro m n h
    obtain ⟨c, pm, um⟩ := m
    exact Or.inl h
  | cons s rest ih =>
    intro m n h
    obtain ⟨c, pm, um⟩ := m
    have h2 : x ∈ treeKeysList (setChild c (escape_reserved_keywords s)
        (((lookupChild c (escape_reserved_keywords s)).getD default).path_to_mod n rest)) := h
    rcases mem_treeKeysList_setChild c _ _ h2 with h3 | h3 | h3
    · exact Or.inl h3
    · exact Or.inr ⟨s, by simp, h3⟩
    · rcases ih _ n h3 with h4 | h4
      · cases hl : lookupChild c (escape_reserved_keywords s) with
        | none =>
          rw [hl] at h4
          simp [treeKeys, treeKeysList, default, instInhabitedModule] at h4
        | some c1 =>
          rw [hl] at h4
          exact Or.inl (mem_treeKeysList_lookup c _ c1 hl h4)
      · obtain ⟨s1, hs1, hx1⟩ := h4
        exact Or.inr ⟨s1, by simp [hs1], hx1⟩

theorem path_to_mod_units {x : String} :
    ∀ (p : List String) (m : Module) (n : String),
      x ∈ treeUnits (m.path_to_mod n p) →
        x ∈ treeUnits m ∨ x = rustTrim (escape_reserved_keywords n) := by
  intro p
  induction p with
  | nil =>
    intro m n h
    obtain ⟨c, pm, um⟩ := m
    have h2 : x ∈ pm ++ (um ++ [rustTrim (escape_reserved_keywords n)])
        ++ treeUnitsList c := h
    show x ∈ pm ++ um ++ treeUnitsList c ∨ x = rustTrim (escape_reserved_keywords n)
    simp only [List.mem_append, List.mem_singleton] at h2 ⊢
    tauto
  | cons s rest ih =>
    intro m n h
    obtain ⟨c, pm, um⟩ := m
    have h2 : x ∈ (if rest.isEmpty then
          pm ++ [rustTrim (escape_reserved_keywords n)] else pm) ++ um
        ++ treeUnitsList (setChild c (escape_reserved_keywords s)
          (((lookupChild c (escape_reserved_keywords s)).getD default).path_to_mod
            n rest)) := h
    show x ∈ pm ++ um ++ treeUnitsList c ∨ x = rustTrim (escape_reserved_keywords n)
    simp only [List.mem_append] at h2 ⊢
    rcases h2 with (h3 | h3) | h3
    · by_cases he : rest.isEmpty
      · rw [if_pos he] at h3
        rcases List.mem_append.mp h3 with h4 | h4
        · tauto
        · right; simpa using h4
      · rw [if_neg he] at h3
        tauto
    · tauto
    · rcases mem_treeUnitsList_setChild c _ _ h3 with h4 | h4
      · tauto
      · rcases ih _ n h4 with h5 | h5
        · cases hl : lookupChild c (escape_reserved_keywords s) with
          | none =>
            rw [hl] at h5
            simp [treeUnits, treeUnitsList, default, instInhabitedModule] at h5
          | some c1 =>
            rw [hl] at h5
            have := mem_treeUnitsList_lookup c _ c1 hl h5
            tauto
        · tauto

end Protocrate

namespace Protocrate

theorem treeKeys_default : treeKeys default = [] := rfl

theorem treeUnits_default : treeUnits default = [] := rfl

theorem foldl_insert_keys {x : String} :
    ∀ (l : List String) (m : Module),
      x ∈ treeKeys (l.foldl (fun m2 name => insertStem m2 (fileStem name)) m) →
        x ∈ treeKeys m ∨ ∃ name ∈ l, ∃ seg ∈ modPath (fileStem name),
          x = escape_reserved_keywords seg := by
  intro l
  induction l with
  | nil => intro m h; exact Or.inl h
  | cons a rest ih =>
    intro m h
    rcases ih (insertStem m (fileStem a)) h with h2 | h2
    · rcases path_to_mod_keys (modPath (fileStem a)) m _ h2 with h3 | h3
      · exact Or.inl h3
      · obtain ⟨seg, hseg, hx⟩ := h3
        exact Or.inr ⟨a, by simp, seg, hseg, hx⟩
    · obtain ⟨name, hname, seg, hseg, hx⟩ := h2
      exact Or.inr ⟨name, by simp [hname], seg, hseg, hx⟩

theorem foldl_insert_units {x : String} :
    ∀ (l : List String) (m : Module),
      x ∈ treeUnits (l.foldl (fun m2 name => insertStem m2 (fileStem name)) m) →
        x ∈ treeUnits m ∨ ∃ name ∈ l,
          x = rustTrim (escape_reserved_keywords (internalName (fileStem name))) := by
  intro l
  induction l with
  | nil => intro m h; exact Or.inl h
  | cons a rest ih =>
    intro m h
    rcases ih (insertStem m (fileStem a)) h with h2 | h2
    · rcases path_to_mod_units (modPath (fileStem a)) m _ h2 with h3 | h3
      · exact Or.inl h3
      · exact Or.inr ⟨a, by simp, h3⟩
    · obtain ⟨name, hname, hx⟩ := h2
      exact Or.inr ⟨name, by simp [hname], hx⟩

theorem build_keys {x : String} (names : List String)
    (h : x ∈ treeKeys (build names)) :
    ∃ name ∈ names, ∃ seg ∈ modPath (fileStem name),
      x = escape_reserved_keywords seg := by
  rcases foldl_insert_keys (sortStrs names) default h with h2 | h2
  · simp [treeKeys_default] at h2
  · obtain ⟨name, hname, rest⟩ := h2
    exact ⟨name, (List.mem_insertionSort strLe).mp hname, rest⟩

theorem build_units {x : String} (names : List String)
    (h : x ∈ treeUnits (build names)) :
    ∃ name ∈ names,
      x = rustTrim (escape_reserved_keywords (internalName (fileStem name))) := by
  rcases foldl_insert_units (sortStrs names) default h with h2 | h2
  · simp [treeUnits_default] at h2
  · obtain ⟨name, hname, rest⟩ := h2
    exact ⟨name, (List.mem_insertionSort strLe).mp hname, rest⟩

/-! ### Every name emitted by `codegen` is a key or a unit of the tree -/

theorem sizeOf_child_lt {k : String} {c : Module} {cm : List (String × Module)}
    {p u : List String} (h : (k, c) ∈ cm) :
    sizeOf c < sizeOf (Module.mk cm p u) := by
  have h1 := List.sizeOf_lt_of_mem h
  simp at h1 ⊢
  omega

theorem collectNamesList_append (a b : List Item) :
    collectNamesList (a ++ b) = collectNamesList a ++ collectNamesList b := by
  induction a with
  | nil => rfl
  | cons i rest ih => simp [collectNamesList, ih]

theorem mem_collect_map_raw {x : String} (l : List String) :
    x ∈ collectNamesList (l.map Item.rawModDecl) ↔ x ∈ l := by
  induction l with
  | nil => simp [collectNamesList]
  | cons a rest ih => simp [collectNamesList, collectNamesItem, ih]

theorem mem_collect_map_use {x : String} (l : List String) :
    x ∈ collectNamesList (l.map Item.pubUseGlob) ↔ x ∈ l := by
  induction l with
  | nil => simp [collectNamesList]
  | cons a rest ih => simp [collectNamesList, collectNamesItem, ih]

theorem mem_collect_pubBlocks {x : String} :
    ∀ l : List (String × Module),
      x ∈ collectNamesList (l.map fun y => Item.pubModBlock y.1 y.2.codegen) →
        ∃ y ∈ l, x = y.1 ∨ x ∈ collectNamesList y.2.codegen := by
  intro l
  induction l with
  | nil => intro h; simp [collectNamesList] at h
  | cons y rest ih =>
    intro h
    simp only [List.map_cons, collectNamesList, collectNamesItem,
      List.mem_cons, List.mem_append] at h
    rcases h with (h | h) | h
    · exact ⟨y, by simp, Or.inl h⟩
    · exact ⟨y, by simp, Or.inr h⟩
    · obtain ⟨z, hz, hx⟩ := ih h
      exact ⟨z, by simp [hz], hx⟩

theorem mem_key_of_mem_child {k : String} {m : Module} :
    ∀ l : List (String × Module), (k, m) ∈ l → k ∈ treeKeysList l := by
  intro l
  induction l with
  | nil => intro h; simp at h
  | cons y rest ih =>
    intro h
    obtain ⟨k0, c0⟩ := y
    rw [treeKeysList_cons]
    rcases List.mem_cons.mp h with h2 | h2
    · simp [Prod.ext_iff] at h2
      simp [h2.1]
    · simp [ih h2]

theorem mem_treeKeysList_of_child {x k : String} {m : Module} :
    ∀ l : List (String × Module), (k, m) ∈ l → x ∈ treeKeys m →
      x ∈ treeKeysList l := by
  intro l
  induction l with
  | nil => intro h; simp at h
  | cons y rest ih =>
    intro h hx
    obtain ⟨k0, c0⟩ := y
    rw [treeKeysList_cons]
    rcases List.mem_cons.mp h with h2 | h2
    · simp [Prod.ext_iff] at h2
      simp [← h2.2, hx]
    · simp [ih h2 hx]

theorem mem_treeUnitsList_of_child {x k : String} {m : Module} :
    ∀ l : List (String × Module), (k, m) ∈ l → x ∈ treeUnits m →
      x ∈ treeUnitsList l := by
  intro l
  induction l with
  | nil => intro h; simp at h
  | cons y rest ih =>
    intro h hx
    obtain ⟨k0, c0⟩ := y
    rw [treeUnitsList_cons]
    rcases List.mem_cons.mp h with h2 | h2
    · simp [Prod.ext_iff] at h2
      simp [← h2.2, hx]
    · simp [ih h2 hx]

theorem collect_codegen_sub :
    ∀ (fuel : Nat) (m : Module), sizeOf m ≤ fuel →
      ∀ x ∈ collectNamesList m.codegen, x ∈ treeKeys m ∨ x ∈ treeUnits m := by
  intro fuel
  induction fuel with
  | zero =>
    intro m hm
    exfalso
    obtain ⟨c, p, u⟩ := m
    simp at hm
  | succ f ih =>
    intro m hm x hx
    obtain ⟨c, p, u⟩ := m
    rw [codegen_mk, collectNamesList_append, collectNamesList_append] at hx
    rw [treeKeys_mk, treeUnits_mk]
    simp only [List.mem_append] at hx
    rcases hx with (hx | hx) | hx
    · have h2 : x ∈ sortStrs p := (mem_collect_map_raw _).mp hx
      have h3 : x ∈ p := (List.mem_insertionSort strLe).mp h2
      right; simp [h3]
    · obtain ⟨y, hy, hx2⟩ := mem_collect_pubBlocks _ hx
      have hyc : y ∈ c := (List.mem_insertionSort keyLe).mp hy
      obtain ⟨k0, m0⟩ := y
      rcases hx2 with hx2 | hx2
      · left
        subst hx2
        exact mem_key_of_mem_child c hyc
      · have hsz : sizeOf m0 ≤ f := by
          have := sizeOf_child_lt (p := p) (u := u) hyc
          omega
        rcases ih m0 hsz x hx2 with h4 | h4
        · exact Or.inl (mem_treeKeysList_of_child c hyc h4)
        · right
          have := mem_treeUnitsList_of_child c hyc h4
          simp [this]
    · have h2 : x ∈ sortStrs u := (mem_collect_map_use _).mp hx
      have h3 : x ∈ u := (List.mem_insertionSort strLe).mp h2
      right; simp [h3]

end Protocrate

namespace Protocrate

/-! ### The `_internal` suffix machinery -/

theorem hasInternalSuffix_iff (s : String) :
    hasInternalSuffix s = true ↔ "_internal".data <:+ s.data := by
  unfold hasInternalSuffix
  exact List.isSuffixOf_iff_suffix

theorem internalName_suffix (stem : String) :
    hasInternalSuffix (internalName stem) = true := by
  rw [hasInternalSuffix_iff]
  unfold internalName
  rw [String.data_append]
  exact List.suffix_append _ _

theorem raw_no_suffix : ∀ s ∈ rawEscapable, hasInternalSuffix s = false := by
  decide

theorem special_no_suffix : ∀ s ∈ specialEscape, hasInternalSuffix s = false := by
  decide

theorem not_reserved_of_suffix {x : String} (h : hasInternalSuffix x = true) :
    x ∉ rawEscapable ∧ x ∉ specialEscape := by
  constructor
  · intro hm
    rw [raw_no_suffix x hm] at h
    exact Bool.false_ne_true h
  · intro hm
    rw [special_no_suffix x hm] at h
    exact Bool.false_ne_true h

theorem escape_id_of_suffix {x : String} (h : hasInternalSuffix x = true) :
    escape_reserved_keywords x = x := by
  obtain ⟨h1, h2⟩ := not_reserved_of_suffix h
  exact escape_of_not_mem h1 h2

theorem suffix_dropWhile {P : Char → Bool} {suf : List Char} {c0 : Char}
    (hc : suf.head? = some c0) (hp : P c0 = false) :
    ∀ l : List Char, suf <:+ l → suf <:+ l.dropWhile P := by
  intro l
  induction l with
  | nil =>
    intro h
    rw [List.suffix_nil] at h
    subst h
    simp at hc
  | cons a rest ih =>
    intro h
    rcases List.suffix_cons_iff.mp h with h2 | h2
    · subst h2
      have ha : a = c0 := by simpa using hc
      have hpa : P a = false := by rw [ha]; exact hp
      rw [List.dropWhile_cons]
      simp [hpa]
    · rw [List.dropWhile_cons]
      by_cases hpa : P a
      · simpa [hpa] using ih h2
      · simp only [hpa, if_false]
        exact h2.trans (List.suffix_cons a rest)

theorem reverse_dropWhile_id {P : Char → Bool} {l : List Char} {c0 : Char}
    (hl : l.getLast? = some c0) (hp : P c0 = false) :
    (l.reverse.dropWhile P).reverse = l := by
  have hh : l.reverse.head? = some c0 := by
    rw [List.head?_reverse]
    exact hl
  cases hrev : l.reverse with
  | nil => rw [hrev] at hh; simp at hh
  | cons a t =>
    rw [hrev] at hh
    have ha : a = c0 := by simpa using hh
    have hpa : P a = false := by rw [ha]; exact hp
    rw [List.dropWhile_cons]
    simp only [hpa, if_false, Bool.false_eq_true]
    rw [← hrev, List.reverse_reverse]

theorem rustTrim_suffix {s : String} (h : hasInternalSuffix s = true) :
    hasInternalSuffix (rustTrim s) = true := by
  rw [hasInternalSuffix_iff] at h ⊢
  have hc : ("_internal".data : List Char).head? = some '_' := rfl
  have hp : Char.isWhitespace '_' = false := rfl
  have step1 : "_internal".data <:+ s.data.dropWhile Char.isWhitespace :=
    suffix_dropWhile hc hp s.data h
  obtain ⟨a, ha⟩ := step1
  have hlast : (s.data.dropWhile Char.isWhitespace).getLast? = some 'l' := by
    rw [← ha, List.getLast?_append_of_ne_nil a (by simp)]
    rfl
  have hdata : (rustTrim s).data = s.data.dropWhile Char.isWhitespace := by
    show ((s.data.dropWhile Char.isWhitespace).reverse.dropWhile
        Char.isWhitespace).reverse = _
    exact reverse_dropWhile_id hlast rfl
  rw [hdata, ← ha]
  exact List.suffix_append a _

theorem raw_escaped_no_suffix :
    ∀ s ∈ rawEscapable, hasInternalSuffix ("r#" ++ s) = false := by decide

theorem special_escaped_no_suffix :
    ∀ s ∈ specialEscape, hasInternalSuffix (s ++ "_") = false := by decide

theorem escape_no_suffix {s : String} (h : hasInternalSuffix s = false) :
    hasInternalSuffix (escape_reserved_keywords s) = false := by
  by_cases h1 : s ∈ rawEscapable
  · rw [escape_of_mem_raw h1]
    exact raw_escaped_no_suffix s h1
  · by_cases h2 : s ∈ specialEscape
    · rw [escape_of_mem_special h2]
      exact special_escaped_no_suffix s h2
    · rw [escape_of_not_mem h1 h2]
      exact h

theorem trimmed_internal_suffix (stem : String) :
    hasInternalSuffix
      (rustTrim (escape_reserved_keywords (internalName stem))) = true := by
  rw [escape_id_of_suffix (internalName_suffix stem)]
  exact rustTrim_suffix (internalName_suffix stem)

/-- C4 counterexample: internal-unit names CAN collide with namespace-segment
names. With input files `foo.rs` and `foo_internal.rs`, the unit synthesized
for stem `foo` is `foo_internal`, which equals the namespace-segment key
created for stem `foo_internal` — the emitted file would declare both
`mod foo_internal;` and `pub mod foo_internal { .. }`. -/
theorem internal_unit_collision_counterexample :
    internalName "foo" = "foo_internal" ∧
      "foo_internal" ∈ treeKeys (build ["foo.rs", "foo_internal.rs"]) ∧
      "foo_internal" ∈ treeUnits (build ["foo.rs", "foo_internal.rs"]) := by
  refine ⟨rfl, ?_, ?_⟩ <;> decide

/-- C4 amended: the synthesized internal-unit name (original stem with `r#`
markers stripped, dots replaced by underscores, suffixed `_internal`) always
carries the `_internal` suffix even after escaping and trimming; and for input
sets in which no raw path segment itself ends in `_internal`, no internal-unit
name equals any namespace-segment name occurring in the tree. (The
unconditional claim is false, see the counterexample.) -/
theorem internal_unit_names_spec :
    (∀ stem : String,
        hasInternalSuffix
          (rustTrim (escape_reserved_keywords (internalName stem))) = true) ∧
      ∀ names : List String,
        (∀ s ∈ names, ∀ seg ∈ modPath (fileStem s),
          hasInternalSuffix seg = false) →
        ∀ x ∈ treeUnits (build names), ∀ k ∈ treeKeys (build names), x ≠ k := by
  refine ⟨trimmed_internal_suffix, ?_⟩
  intro names hseg x hx k hk heq
  obtain ⟨name, hname, hxeq⟩ := build_units names hx
  obtain ⟨name2, hname2, seg, hsegmem, hkeq⟩ := build_keys names hk
  have hxsuf : hasInternalSuffix x = true := by
    rw [hxeq]; exact trimmed_internal_suffix _
  have hksuf : hasInternalSuffix k = false := by
    rw [hkeq]
    exact escape_no_suffix (hseg name2 hname2 seg hsegmem)
  rw [heq, hksuf] at hxsuf
  exact Bool.false_ne_true hxsuf

theorem internal_unit_names_spec_witness :
    hasInternalSuffix
        (rustTrim (escape_reserved_keywords (internalName "foo"))) = true ∧
      ∀ x ∈ treeUnits (build ["foo.rs"]), ∀ k ∈ treeKeys (build ["foo.rs"]),
        x ≠ k :=
  ⟨internal_unit_names_spec.1 "foo",
    internal_unit_names_spec.2 ["foo.rs"] (by decide)⟩

/-- C5: no identifier emitted into the aggregation file is a bare reserved
word: every namespace-segment key is passed through
`escape_reserved_keywords` before being stored, every internal-unit name ends
in `_internal`, and no output of the escaping function lies in either
reserved-word set. -/
theorem no_bare_reserved_identifier (names : List String) :
    ∀ x ∈ collectNamesList (build names).codegen,
      x ∉ rawEscapable ∧ x ∉ specialEscape := by
  intro x hx
  rcases collect_codegen_sub (sizeOf (build names)) (build names) le_rfl x hx
    with h | h
  · obtain ⟨name, hname, seg, hsegmem, hxeq⟩ := build_keys names h
    rw [hxeq]
    exact escape_not_reserved seg
  · obtain ⟨name, hname, hxeq⟩ := build_units names h
    have : hasInternalSuffix x = true := by
      rw [hxeq]; exact trimmed_internal_suffix _
    exact not_reserved_of_suffix this

theorem no_bare_reserved_identifier_witness :
    "r#type" ∉ rawEscapable ∧ "r#type" ∉ specialEscape :=
  no_bare_reserved_identifier ["type.rs"] "r#type" (by decide)

end Protocrate

namespace Protocrate

/-! ### The order in which child namespaces are emitted -/

theorem rootPub_raw (l : List String) :
    rootPubModNames (l.map Item.rawModDecl) = [] := by
  induction l with
  | nil => rfl
  | cons a rest ih => simp [rootPubModNames, List.filterMap_cons, ih]

theorem rootPub_use (l : List String) :
    rootPubModNames (l.map Item.pubUseGlob) = [] := by
  induction l with
  | nil => rfl
  | cons a rest ih => simp [rootPubModNames, List.filterMap_cons, ih]

theorem rootPub_priv (l : List String) :
    rootPubModNames (l.map Item.privModBlock) = [] := by
  induction l with
  | nil => rfl
  | cons a rest ih => simp [rootPubModNames, List.filterMap_cons, ih]

theorem rootPub_append (a b : List Item) :
    rootPubModNames (a ++ b) = rootPubModNames a ++ rootPubModNames b :=
  List.filterMap_append a b _

theorem rootPub_blocks {α : Type} (g : String × α → List Item) :
    ∀ l : List (String × α),
      rootPubModNames (l.map fun y => Item.pubModBlock y.1 (g y)) =
        l.map Prod.fst := by
  intro l
  induction l with
  | nil => rfl
  | cons y rest ih =>
    simp only [List.map_cons, rootPubModNames, List.filterMap_cons] at ih ⊢
    rw [ih]

theorem rootPub_blocks_escaped {α : Type} (g : String × α → List Item) :
    ∀ l : List (String × α),
      rootPubModNames
          (l.map fun y => Item.pubModBlock (escape_reserved_keywords y.1) (g y)) =
        l.map fun y => escape_reserved_keywords y.1 := by
  intro l
  induction l with
  | nil => rfl
  | cons y rest ih =>
    simp only [List.map_cons, rootPubModNames, List.filterMap_cons] at ih ⊢
    rw [ih]

theorem map_fst_sortPairs {α : Type} (l : List (String × α)) :
    (sortPairs l).map Prod.fst = sortStrs (l.map Prod.fst) :=
  List.map_insertionSort keyLe strLe Prod.fst l (fun _ _ _ _ => Iff.rfl)

theorem rootPubModNames_codegen (m : Module) :
    rootPubModNames m.codegen = sortStrs (m.child_mod.map Prod.fst) := by
  obtain ⟨c, p, u⟩ := m
  rw [codegen_mk, rootPub_append, rootPub_append, rootPub_raw, rootPub_use,
    rootPub_blocks (fun y => y.2.codegen) (sortPairs c)]
  simp only [List.nil_append, List.append_nil]
  exact map_fst_sortPairs c

theorem rootPubModNames_write_lib_rs (m : Module) :
    rootPubModNames (write_lib_rs m) =
      (sortStrs (m.child_mod.map Prod.fst)).map escape_reserved_keywords := by
  obtain ⟨c, p, u⟩ := m
  rw [write_lib_rs_mk, rootPub_append, rootPub_append, rootPub_priv, rootPub_use,
    rootPub_blocks_escaped (fun y => write_lib_rs y.2) (sortPairs c)]
  simp only [List.nil_append, List.append_nil]
  show (sortPairs c).map (fun y => escape_reserved_keywords y.1) =
    (sortStrs (c.map Prod.fst)).map escape_reserved_keywords
  rw [← map_fst_sortPairs c, List.map_map]
  rfl

theorem mem_fst_treeKeys {k : String} {m : Module}
    (h : k ∈ m.child_mod.map Prod.fst) : k ∈ treeKeys m := by
  obtain ⟨y, hy, hk⟩ := List.mem_map.mp h
  obtain ⟨k0, m0⟩ := y
  obtain ⟨c, p, u⟩ := m
  subst hk
  exact mem_key_of_mem_child c hy

/-- C3 counterexample: with input files `as.rs` and `b.rs`, `Module::codegen`
emits the root children in the order `b`, `r#as` — the lexicographic order of
the ESCAPED keys stored by `path_to_mod` — whereas lexicographic order over
the raw (pre-escape) names `as < b` would demand `r#as` before `b`. -/
theorem emission_order_counterexample :
    rootPubModNames ((build ["as.rs", "b.rs"]).codegen) = ["b", "r#as"] ∧
      (sortStrs ["as", "b"]).map escape_reserved_keywords = ["r#as", "b"] ∧
      (["b", "r#as"] : List String) ≠ ["r#as", "b"] := by
  refine ⟨?_, ?_, ?_⟩ <;> decide

theorem findPubBlock_map_raw (l : List String) (k : String) :
    findPubBlock (l.map Item.rawModDecl) k = none := by
  induction l with
  | nil => rfl
  | cons a rest ih => exact ih

theorem findPubBlock_map_use (l : List String) (k : String) :
    findPubBlock (l.map Item.pubUseGlob) k = none := by
  induction l with
  | nil => rfl
  | cons a rest ih => exact ih

theorem findPubBlock_map_priv (l : List String) (k : String) :
    findPubBlock (l.map Item.privModBlock) k = none := by
  induction l with
  | nil => rfl
  | cons a rest ih => exact ih

theorem findPubBlock_append_none {a : List Item} {k : String}
    (b : List Item) (h : findPubBlock a k = none) :
    findPubBlock (a ++ b) k = findPubBlock b k := by
  induction a with
  | nil => rfl
  | cons i rest ih =>
    cases i with
    | pubModBlock n bd =>
      by_cases hn : n = k
      · simp [findPubBlock, hn] at h
      · simp only [findPubBlock, hn, if_false] at h
        simp only [List.cons_append, findPubBlock, hn, if_false]
        exact ih h
    | rawModDecl n => exact ih h
    | pubUseGlob n => exact ih h
    | privModBlock n => exact ih h

theorem findPubBlock_append_some {a : List Item} {k : String} {body : List Item}
    (b : List Item) (h : findPubBlock a k = some body) :
    findPubBlock (a ++ b) k = some body := by
  induction a with
  | nil => simp [findPubBlock] at h
  | cons i rest ih =>
    cases i with
    | pubModBlock n bd =>
      by_cases hn : n = k
      · simp only [findPubBlock, hn, if_true] at h
        simp only [List.cons_append, findPubBlock, hn, if_true]
        exact h
      · simp only [findPubBlock, hn, if_false] at h
        simp only [List.cons_append, findPubBlock, hn, if_false]
        exact ih h
    | rawModDecl n => exact ih h
    | pubUseGlob n => exact ih h
    | privModBlock n => exact ih h

theorem findPubBlock_blocks {k : String} {body : List Item} :
    ∀ l : List (String × Module),
      findPubBlock (l.map fun y => Item.pubModBlock y.1 y.2.codegen) k =
          some body →
        ∃ m2 : Module, body = m2.codegen := by
  intro l
  induction l with
  | nil => intro h; simp [findPubBlock] at h
  | cons y rest ih =>
    intro h
    by_cases hn : y.1 = k
    · refine ⟨y.2, ?_⟩
      simp only [List.map_cons, findPubBlock, hn, if_true] at h
      exact (Option.some.inj h).symm
    · simp only [List.map_cons, findPubBlock, hn, if_false] at h
      exact ih h

theorem findPubBlock_blocks_escaped {k : String} {body : List Item} :
    ∀ l : List (String × Module),
      findPubBlock (l.map fun y =>
          Item.pubModBlock (escape_reserved_keywords y.1) (write_lib_rs y.2)) k =
          some body →
        ∃ m2 : Module, body = write_lib_rs m2 := by
  intro l
  induction l with
  | nil => intro h; simp [findPubBlock] at h
  | cons y rest ih =>
    intro h
    by_cases hn : escape_reserved_keywords y.1 = k
    · refine ⟨y.2, ?_⟩
      simp only [List.map_cons, findPubBlock, hn, if_true] at h
      exact (Option.some.inj h).symm
    · simp only [List.map_cons, findPubBlock, hn, if_false] at h
      exact ih h

theorem findPubBlock_codegen {m : Module} {k : String} {body : List Item}
    (h : findPubBlock m.codegen k = some body) :
    ∃ m2 : Module, body = m2.codegen := by
  obtain ⟨c, p, u⟩ := m
  rw [codegen_mk, List.append_assoc,
    findPubBlock_append_none _ (findPubBlock_map_raw (sortStrs p) k)] at h
  cases hB : findPubBlock
      ((sortPairs c).map fun y => Item.pubModBlock y.1 y.2.codegen) k with
  | some b =>
    rw [findPubBlock_append_some _ hB] at h
    obtain rfl : b = body := Option.some.inj h
    exact findPubBlock_blocks _ hB
  | none =>
    rw [findPubBlock_append_none _ hB, findPubBlock_map_use] at h
    exact absurd h (by simp)

theorem findPubBlock_write_lib_rs {m : Module} {k : String} {body : List Item}
    (h : findPubBlock (write_lib_rs m) k = some body) :
    ∃ m2 : Module, body = write_lib_rs m2 := by
  obtain ⟨c, p, u⟩ := m
  rw [write_lib_rs_mk, List.append_assoc,
    findPubBlock_append_none _ (findPubBlock_map_priv (sortStrs p) k)] at h
  cases hB : findPubBlock ((sortPairs c).map fun y =>
      Item.pubModBlock (escape_reserved_keywords y.1) (write_lib_rs y.2)) k with
  | some b =>
    rw [findPubBlock_append_some _ hB] at h
    obtain rfl : b = body := Option.some.inj h
    exact findPubBlock_blocks_escaped _ hB
  | none =>
    rw [findPubBlock_append_none _ hB, findPubBlock_map_use] at h
    exact absurd h (by simp)

theorem blockAt_cons (items : List Item) (key : String) (rest : List String) :
    blockAt items (key :: rest) =
      match findPubBlock items key with
      | some body => blockAt body rest
      | none => none := rfl

theorem blockAt_codegen :
    ∀ (q : List String) (m : Module) (items : List Item),
      blockAt m.codegen q = some items → ∃ m2 : Module, items = m2.codegen := by
  intro q
  induction q with
  | nil => intro m items h; exact ⟨m, (Option.some.inj h).symm⟩
  | cons k rest ih =>
    intro m items h
    rw [blockAt_cons] at h
    cases hf : findPubBlock m.codegen k with
    | none => rw [hf] at h; simp at h
    | some body =>
      rw [hf] at h
      obtain ⟨m2, rfl⟩ := findPubBlock_codegen hf
      exact ih m2 items h

theorem blockAt_write_lib_rs :
    ∀ (q : List String) (m : Module) (items : List Item),
      blockAt (write_lib_rs m) q = some items →
        ∃ m2 : Module, items = write_lib_rs m2 := by
  intro q
  induction q with
  | nil => intro m items h; exact ⟨m, (Option.some.inj h).symm⟩
  | cons k rest ih =>
    intro m items h
    rw [blockAt_cons] at h
    cases hf : findPubBlock (write_lib_rs m) k with
    | none => rw [hf] at h; simp at h
    | some body =>
      rw [hf] at h
      obtain ⟨m2, rfl⟩ := findPubBlock_write_lib_rs hf
      exact ih m2 items h

/-- C3 amended: emission order at EVERY node (the root and every nested
`pub mod` block of the emission, reached by `blockAt`) is deterministic and
lexicographic over the stored child-map keys: every reachable block is the
emission of a subtree whose top-level `pub mod` names are its sorted keys. In
`Module::codegen` (src/module.rs) those keys are the ESCAPED segment names —
so the order can differ from raw-name order, see the counterexample — while
in `write_lib_rs` (src/main.rs) the keys are the raw names, sorted raw and
escaped only at emission. -/
theorem emission_order_spec :
    (∀ (m : Module) (q : List String) (items : List Item),
        blockAt m.codegen q = some items →
        ∃ m2 : Module, items = m2.codegen ∧
          rootPubModNames items = sortStrs (m2.child_mod.map Prod.fst)) ∧
      (∀ names : List String, ∀ k ∈ treeKeys (build names),
        ∃ s ∈ names, ∃ seg ∈ modPath (fileStem s),
          k = escape_reserved_keywords seg) ∧
      ∀ (m : Module) (q : List String) (items : List Item),
        blockAt (write_lib_rs m) q = some items →
        ∃ m2 : Module, items = write_lib_rs m2 ∧
          rootPubModNames items =
            (sortStrs (m2.child_mod.map Prod.fst)).map
              escape_reserved_keywords := by
  refine ⟨?_, fun names _ hk => build_keys names hk, ?_⟩
  · intro m q items h
    obtain ⟨m2, rfl⟩ := blockAt_codegen q m items h
    exact ⟨m2, rfl, rootPubModNames_codegen m2⟩
  · intro m q items h
    obtain ⟨m2, rfl⟩ := blockAt_write_lib_rs q m items h
    exact ⟨m2, rfl, rootPubModNames_write_lib_rs m2⟩

theorem emission_order_spec_witness :
    (∃ m2 : Module, (build ["as.rs", "b.rs"]).codegen = m2.codegen ∧
        rootPubModNames ((build ["as.rs", "b.rs"]).codegen) =
          sortStrs (m2.child_mod.map Prod.fst)) ∧
      (∃ s ∈ ["as.rs", "b.rs"], ∃ seg ∈ modPath (fileStem s),
        "r#as" = escape_reserved_keywords seg) ∧
      ∃ m2 : Module, write_lib_rs (build2 ["as.rs", "b.rs"]) = write_lib_rs m2 ∧
        rootPubModNames (write_lib_rs (build2 ["as.rs", "b.rs"])) =
          (sortStrs (m2.child_mod.map Prod.fst)).map escape_reserved_keywords :=
  ⟨emission_order_spec.1 (build ["as.rs", "b.rs"]) []
      ((build ["as.rs", "b.rs"]).codegen) rfl,
    emission_order_spec.2.1 ["as.rs", "b.rs"] "r#as" (by decide),
    emission_order_spec.2.2 (build2 ["as.rs", "b.rs"]) []
      (write_lib_rs (build2 ["as.rs", "b.rs"])) rfl⟩

/-! ### Relocation -/

theorem foldl_append_eq :
    ∀ (l acc : List String), l.foldl (fun d seg => d ++ [seg]) acc = acc ++ l := by
  intro l
  induction l with
  | nil => intro acc; simp
  | cons a rest ih => intro acc; rw [List.foldl_cons, ih]; simp

theorem nodeAt_cons (m : Module) (key : String) (rest : List String) :
    nodeAt m (key :: rest) =
      match lookupChild m.child_mod key with
      | some c => nodeAt c rest
      | none => none := rfl

theorem nodeAtD_cons (m : Module) (key : String) (rest : List String) :
    nodeAtD m (key :: rest) =
      nodeAtD ((lookupChild m.child_mod key).getD default) rest := rfl

theorem nodeAt_insert_isSome :
    ∀ (segs : List String) (u : String),
      (nodeAt (Module.path_to_mod default u segs)
        ((segs.dropLast).map escape_reserved_keywords)).isSome = true := by
  intro segs
  induction segs with
  | nil => intro u; rfl
  | cons s rest ih =>
    intro u
    cases rest with
    | nil => rfl
    | cons r rs =>
      have hstep : Module.path_to_mod default u (s :: r :: rs) =
          .mk [(escape_reserved_keywords s,
            Module.path_to_mod default u (r :: rs))] [] [] := rfl
      have hdrop : (s :: r :: rs).dropLast = s :: (r :: rs).dropLast := rfl
      rw [hstep, hdrop, List.map_cons, nodeAt_cons]
      rw [show lookupChild (Module.mk [(escape_reserved_keywords s,
          Module.path_to_mod default u (r :: rs))] [] []).child_mod
          (escape_reserved_keywords s) =
        some (Module.path_to_mod default u (r :: rs)) by simp [lookupChild]]
      exact ih u

/-- C8 corrected/amended: relocation computes the nested directory chain from
the RAW (unescaped) path segments excluding the last, and renames the file to
the synthesized internal-unit name with the FIXED `.rs` extension (the
original extension is discarded); the escaped images of those directory
segments are exactly the tree path at which the unit is declared. -/
theorem relocate_spec (name : String) :
    (relocate name).1 = (modPath (fileStem name)).dropLast ∧
      (relocate name).2 = internalName (fileStem name) ++ ".rs" ∧
      (nodeAt (insertStem default (fileStem name))
        (((modPath (fileStem name)).dropLast).map
          escape_reserved_keywords)).isSome = true := by
  refine ⟨?_, rfl, ?_⟩
  · show ((modPath (fileStem name)).take
        ((modPath (fileStem name)).length - 1)).foldl
        (fun d seg => d ++ [seg]) [] = _
    rw [foldl_append_eq, List.nil_append, ← List.dropLast_eq_take]
  · exact nodeAt_insert_isSome (modPath (fileStem name))
      (internalName (fileStem name))

/-- C8 counterexample: a file `x.txt` (stem `x`, original extension `txt`) is
renamed to `x_internal.rs` — the `.rs` extension is hardcoded
(src/module.rs line 42), not the original extension `txt` of the file as the
claim states. -/
theorem relocate_extension_counterexample :
    relocate "x.txt" = ([], "x_internal.rs") ∧
      fileExtension "x.txt" = some "txt" ∧
      ("x_internal.rs" : String) ≠ "x_internal" ++ "." ++ "txt" := by
  refine ⟨?_, ?_, ?_⟩ <;> decide

/-! ### Duplicate internal-unit names are all retained -/

theorem lookupChild_setChild_self :
    ∀ (l : List (String × Module)) (k : String) (v : Module),
      lookupChild (setChild l k v) k = some v := by
  intro l
  induction l with
  | nil => intro k v; simp [setChild, lookupChild]
  | cons y rest ih =>
    obtain ⟨k0, c0⟩ := y
    intro k v
    by_cases hk : k0 = k
    · simp [setChild, hk, lookupChild]
    · simp [setChild, hk, lookupChild, ih]

theorem nodeAtD_default : ∀ q : List String, nodeAtD default q = default := by
  intro q
  induction q with
  | nil => rfl
  | cons k rest ih =>
    show nodeAtD ((lookupChild [] k).getD default) rest = default
    exact ih

theorem double_insert_priv :
    ∀ (p : List String) (m : Module) (u : String), p ≠ [] →
      (nodeAt ((m.path_to_mod u p).path_to_mod u p)
          ((p.dropLast).map escape_reserved_keywords)).map Module.priv_mod =
        some ((nodeAtD m ((p.dropLast).map escape_reserved_keywords)).priv_mod
          ++ [rustTrim (escape_reserved_keywords u),
              rustTrim (escape_reserved_keywords u)]) := by
  intro p
  induction p with
  | nil => intro m u h; exact absurd rfl h
  | cons s rest ih =>
    intro m u _
    obtain ⟨c, pm, um⟩ := m
    cases rest with
    | nil =>
      show some ((pm ++ [rustTrim (escape_reserved_keywords u)])
          ++ [rustTrim (escape_reserved_keywords u)]) = _
      simp [nodeAtD, Module.priv_mod]
    | cons r rs =>
      have hdrop : ((s :: r :: rs).dropLast).map escape_reserved_keywords =
          escape_reserved_keywords s ::
            (((r :: rs).dropLast).map escape_reserved_keywords) := rfl
      rw [hdrop]
      have hstep1 : (Module.mk c pm um).path_to_mod u (s :: r :: rs) =
          Module.mk (setChild c (escape_reserved_keywords s)
            (((lookupChild c (escape_reserved_keywords s)).getD
              default).path_to_mod u (r :: rs))) pm um := rfl
      rw [hstep1]
      generalize hc0 : (lookupChild c (escape_reserved_keywords s)).getD default
        = child0
      have hstep2 : (Module.mk (setChild c (escape_reserved_keywords s)
            (child0.path_to_mod u (r :: rs))) pm um).path_to_mod u
            (s :: r :: rs) =
          Module.mk (setChild
            (setChild c (escape_reserved_keywords s)
              (child0.path_to_mod u (r :: rs)))
            (escape_reserved_keywords s)
            (((lookupChild (setChild c (escape_reserved_keywords s)
                  (child0.path_to_mod u (r :: rs)))
                (escape_reserved_keywords s)).getD
              default).path_to_mod u (r :: rs))) pm um := rfl
      rw [hstep2, lookupChild_setChild_self, Option.getD_some, nodeAt_cons]
      have hlook2 := lookupChild_setChild_self
        (setChild c (escape_reserved_keywords s)
          (child0.path_to_mod u (r :: rs)))
        (escape_reserved_keywords s)
        ((child0.path_to_mod u (r :: rs)).path_to_mod u (r :: rs))
      rw [show (Module.mk (setChild
          (setChild c (escape_reserved_keywords s)
            (child0.path_to_mod u (r :: rs)))
          (escape_reserved_keywords s)
          ((child0.path_to_mod u (r :: rs)).path_to_mod u (r :: rs))) pm
          um).child_mod =
        setChild
          (setChild c (escape_reserved_keywords s)
            (child0.path_to_mod u (r :: rs)))
          (escape_reserved_keywords s)
          ((child0.path_to_mod u (r :: rs)).path_to_mod u (r :: rs)) from rfl,
        hlook2]
      rw [nodeAtD_cons]
      have hcm : (Module.mk c pm um).child_mod = c := rfl
      rw [hcm, hc0]
      exact ih child0 u (by simp)

/-- C9 counterexample: two input files with the same stem (`a.b.rs` and
`a.b.txt`) yield the same internal-unit name `a_b_internal` at the same
parent scope; `Module::build` neither errors nor keeps a single entry — BOTH
entries are pushed and later emitted, so the documented two-policy claim
(error or last-write-wins) fails. -/
theorem duplicate_unit_counterexample :
    fileStem "a.b.rs" = fileStem "a.b.txt" ∧
      (nodeAt (build ["a.b.rs", "a.b.txt"]) ["a"]).map Module.priv_mod =
        some ["a_b_internal", "a_b_internal"] := by
  refine ⟨rfl, ?_⟩
  decide

/-- C9 amended: duplicate insertions are deterministic, but the policy is
that ALL entries are retained: inserting the same unit name twice along the
same path leaves the unit name twice in the private list of the parent node (and
the emission declares it twice). -/
theorem duplicate_units_retained (u : String) (p : List String) (hp : p ≠ []) :
    (nodeAt ((Module.path_to_mod default u p).path_to_mod u p)
        ((p.dropLast).map escape_reserved_keywords)).map Module.priv_mod =
      some [rustTrim (escape_reserved_keywords u),
            rustTrim (escape_reserved_keywords u)] := by
  have h := double_insert_priv p default u hp
  rw [nodeAtD_default] at h
  simpa using h

theorem duplicate_units_retained_witness :
    (nodeAt ((Module.path_to_mod default "a_b_internal" ["a", "b"]).path_to_mod
        "a_b_internal" ["a", "b"])
        (((["a", "b"] : List String).dropLast).map
          escape_reserved_keywords)).map Module.priv_mod =
      some [rustTrim (escape_reserved_keywords "a_b_internal"),
            rustTrim (escape_reserved_keywords "a_b_internal")] :=
  duplicate_units_retained "a_b_internal" ["a", "b"] (by decide)

end Protocrate
